import Mathlib

/-!
# Verification of the hdwallet BIP-32 library

A shallow embedding, in Lean 4, of the jjyr/hdwallet Rust library:
key indices, extended private/public keys, the HMAC-SHA512 child-key
derivation engine, the chain-path parser/formatter, the key chain walk,
and the Bitcoin extended-key wire codec.

Bytes are modelled as `List Nat` (each entry a value below 256).
External cryptographic collaborators (SHA-256, RIPEMD-160, HMAC-SHA512,
and the secp256k1 point codec) are opaque per the library design; they
are bundled in a `Crypto` structure over which all definitions are
parameterised, carrying only their output-length contracts.

The secp256k1 group is cyclic of prime order `secpOrder`; following the
usual algebraic model we represent a public key by its discrete
logarithm (a scalar below the order), so that deriving a public key
from a secret key is the identity on scalars and the point-tweak
operation `add_exp_assign` is addition modulo the order.  Secret keys
are scalars; `SecretKey::from_slice` accepts exactly 32-byte big-endian
encodings of scalars in `[1, secpOrder)`.

Rust functions that can hit a `panic!`/`expect`/out-of-bounds slice are
embedded with the result type `RRes`, which distinguishes a normal
value, a returned error, and an abort.
-/

/-- Big-endian encoding of `n` on `w` bytes (truncating above `256^w`),
matching `to_be_bytes` / fixed-width buffer writes in the source. -/
def natToBe : Nat → Nat → List Nat
  | 0, _ => []
  | w + 1, n => natToBe w (n / 256) ++ [n % 256]

/-- Big-endian value of a byte string, matching `from_be_bytes` /
`SecretKey` byte interpretation in the source. -/
def beToNat (l : List Nat) : Nat :=
  l.foldl (fun a b => 256 * a + b) 0

theorem natToBe_length (w n : Nat) : (natToBe w n).length = w := by
  induction w generalizing n with
  | zero => rfl
  | succ w ih => simp [natToBe, ih]

theorem beToNat_append_single (l : List Nat) (b : Nat) :
    beToNat (l ++ [b]) = 256 * beToNat l + b := by
  simp [beToNat, List.foldl_append]

theorem beToNat_natToBe (w n : Nat) : beToNat (natToBe w n) = n % 256 ^ w := by
  induction w generalizing n with
  | zero => simp [natToBe, beToNat, Nat.mod_one]
  | succ w ih =>
    rw [natToBe, beToNat_append_single, ih]
    rw [Nat.pow_succ, Nat.mul_comm (256 ^ w) 256, Nat.mod_mul]
    ring

theorem beToNat_natToBe_of_lt {w n : Nat} (h : n < 256 ^ w) :
    beToNat (natToBe w n) = n := by
  rw [beToNat_natToBe, Nat.mod_eq_of_lt h]

/-- Order of the secp256k1 group. -/
def secpOrder : Nat :=
  0xFFFFFFFFFFFFFFFFFFFFFFFFFFFFFFFEBAAEDCE6AF48A03BBFD25E8CD0364141

theorem secpOrder_lt : secpOrder < 256 ^ 32 := by decide

/-- Opaque cryptographic collaborators consumed by the library, together
with the output-length contracts the real primitives satisfy.
`pubSer` is the 33-byte compressed encoding of a secp256k1 point (here:
of its discrete logarithm); `pubParse` is `PublicKey::from_slice`. -/
structure Crypto where
  sha256 : List Nat → List Nat
  ripemd160 : List Nat → List Nat
  hmacSha512 : List Nat → List Nat → List Nat
  pubSer : Nat → List Nat
  pubParse : List Nat → Option Nat
  sha256_len : ∀ x, (sha256 x).length = 32
  ripemd160_len : ∀ x, (ripemd160 x).length = 20
  hmacSha512_len : ∀ k d, (hmacSha512 k d).length = 64
  pubSer_len : ∀ p, (pubSer p).length = 33

/-- Result of a Rust computation that may return a value, return an
error, or abort the process (`panic!` / failed `expect` / out-of-bounds
slice index). -/
inductive RRes (ε : Type) (α : Type) where
  | ok : α → RRes ε α
  | error : ε → RRes ε α
  | abort : RRes ε α
deriving Repr, DecidableEq

deriving instance DecidableEq for Except

/-- Chain-path parse errors, from `src/key_chain/chain_path.rs` `Error`. -/
inductive ChainPathError where
  | invalid
  | blank
  | keyIndexOutOfRange
deriving Repr, DecidableEq

/-- hdwallet error kinds, from `src/error.rs` across the library's
revisions (`InvalidKeyIndex`/`InvalidResultKey` are used by
`src/extended_key.rs`, `IndexOutRange` by `src/key_index.rs`,
`ChainPath` by `src/key_chain.rs`). -/
inductive Error where
  | invalidKeyIndex
  | invalidResultKey
  | indexOutRange
  | chainPath : ChainPathError → Error
deriving Repr, DecidableEq

/-- `SecretKey::from_slice`: accepts exactly the 32-byte big-endian
encodings of scalars in `[1, secpOrder)`. -/
def secretKeyFromSlice (l : List Nat) : Option Nat :=
  if l.length = 32 ∧ 0 < beToNat l ∧ beToNat l < secpOrder then some (beToNat l)
  else none

/-- `PublicKey::from_secret_key`: in the discrete-log model of the
secp256k1 group, the point of a valid scalar is the scalar itself. -/
def pubOfPriv (k : Nat) : Nat := k

/-- `add_exp_assign` (point tweak-add): adds `tweak * G` to the point;
fails if the result is the point at infinity, i.e. in the discrete-log
model when the sum of the logarithms is `0 (mod secpOrder)`. -/
def addExp (p tweak : Nat) : Option Nat :=
  if (p + tweak) % secpOrder = 0 then none else some ((p + tweak) % secpOrder)

/-- `SecretKey::add_assign` (scalar tweak-add modulo the order): fails
if the resulting scalar is `0`. -/
def secretAddAssign (k tweak : Nat) : Option Nat :=
  if (k + tweak) % secpOrder = 0 then none else some ((k + tweak) % secpOrder)

namespace KeyIndex

/-- Start of the hardened index range, `2^31`
(`src/extended_key/key_index.rs`). -/
def HARDENED_KEY_START_INDEX : Nat := 2147483648

end KeyIndex

/-- `KeyIndex` from `src/extended_key/key_index.rs` (the `u32`
revision, used by `src/extended_key.rs`, `src/key_chain.rs` and
`hdwallet-bitcoin`). -/
inductive KeyIndex where
  | Normal : Nat → KeyIndex
  | Hardened : Nat → KeyIndex
deriving Repr, DecidableEq

namespace KeyIndex

/-- `KeyIndex::raw_index`. -/
def raw_index : KeyIndex → Nat
  | Normal i => i
  | Hardened i => i

/-- `KeyIndex::normalize_index`. -/
def normalize_index : KeyIndex → Nat
  | Normal i => i
  | Hardened i => i - HARDENED_KEY_START_INDEX

/-- `KeyIndex::is_valid`. -/
def is_valid : KeyIndex → Bool
  | Normal i => i < HARDENED_KEY_START_INDEX
  | Hardened i => HARDENED_KEY_START_INDEX ≤ i

/-- `KeyIndex::hardened_from_normalize_index` (total on `u32`). -/
def hardened_from_normalize_index (i : Nat) : KeyIndex :=
  if i < HARDENED_KEY_START_INDEX then Hardened (HARDENED_KEY_START_INDEX + i)
  else Hardened i

/-- `KeyIndex::from_index` (total on `u32`). -/
def from_index (i : Nat) : KeyIndex :=
  if i < HARDENED_KEY_START_INDEX then Normal i else Hardened i

end KeyIndex

/-- `ExtendedPrivKey` from `src/extended_key.rs`: a secret scalar plus
a chain code. -/
structure ExtendedPrivKey where
  private_key : Nat
  chain_code : List Nat
deriving Repr, DecidableEq

/-- `ExtendedPubKey` from `src/extended_key.rs`: a public point (here
its discrete logarithm) plus a chain code. -/
structure ExtendedPubKey where
  public_key : Nat
  chain_code : List Nat
deriving Repr, DecidableEq

/-- `ChildPrivKey` from `src/extended_key.rs`. -/
structure ChildPrivKey where
  key_index : KeyIndex
  extended_key : ExtendedPrivKey
deriving Repr, DecidableEq

/-- `ChildPubKey` from `src/extended_key.rs`. -/
structure ChildPubKey where
  key_index : KeyIndex
  extended_key : ExtendedPubKey
deriving Repr, DecidableEq

/-- The byte string `"Bitcoin seed"`. -/
def bitcoinSeedBytes : List Nat := [66, 105, 116, 99, 111, 105, 110, 32, 115, 101, 101, 100]

namespace ExtendedPrivKey

/-- `ExtendedPrivKey::with_seed` (`src/extended_key.rs` lines 66-82):
HMAC-SHA512 keyed by `"Bitcoin seed"` over the seed; the left half is
the secret key (validated by `SecretKey::from_slice`), the right half
the chain code. -/
def with_seed (c : Crypto) (seed : List Nat) : Except Error ExtendedPrivKey :=
  let sig := c.hmacSha512 bitcoinSeedBytes seed
  let key := sig.take (sig.length / 2)
  let chain_code := sig.drop (sig.length / 2)
  match secretKeyFromSlice key with
  | some private_key => .ok { private_key, chain_code }
  | none => .error .invalidResultKey

/-- `ExtendedPrivKey::sign_hardended_key` (`src/extended_key.rs` lines
84-91): HMAC-SHA512 keyed by the chain code over
`0x00 ++ private_key (32 bytes) ++ index.to_be_bytes() (4 bytes)`. -/
def sign_hardended_key (c : Crypto) (k : ExtendedPrivKey) (index : Nat) : List Nat :=
  c.hmacSha512 k.chain_code ([0x00] ++ natToBe 32 k.private_key ++ natToBe 4 index)

/-- `ExtendedPrivKey::sign_normal_key` (`src/extended_key.rs` lines
93-100): HMAC-SHA512 keyed by the chain code over
`compressed public key (33 bytes) ++ index.to_be_bytes() (4 bytes)`. -/
def sign_normal_key (c : Crypto) (k : ExtendedPrivKey) (index : Nat) : List Nat :=
  c.hmacSha512 k.chain_code (c.pubSer (pubOfPriv k.private_key) ++ natToBe 4 index)

/-- `ExtendedPrivKey::derive_private_key` (`src/extended_key.rs` lines
103-126).  The `add_assign(..).expect("add point")` in the source
aborts when the scalar tweak-add fails, hence the `RRes` result. -/
def derive_private_key (c : Crypto) (k : ExtendedPrivKey) (key_index : KeyIndex) :
    RRes Error ChildPrivKey :=
  if ¬key_index.is_valid then .error .invalidKeyIndex
  else
    let sig :=
      match key_index with
      | .Hardened index => sign_hardended_key c k index
      | .Normal index => sign_normal_key c k index
    let key := sig.take (sig.length / 2)
    let chain_code := sig.drop (sig.length / 2)
    match secretKeyFromSlice key with
    | some il =>
      match secretAddAssign il k.private_key with
      | some private_key =>
        .ok { key_index, extended_key := { private_key, chain_code } }
      | none => .abort
    | none => .error .invalidResultKey

end ExtendedPrivKey

namespace ExtendedPubKey

/-- `ExtendedPubKey::derive_public_key` (`src/extended_key.rs` lines
158-193). -/
def derive_public_key (c : Crypto) (k : ExtendedPubKey) (key_index : KeyIndex) :
    Except Error ChildPubKey :=
  if ¬key_index.is_valid then .error .invalidKeyIndex
  else
    match key_index with
    | .Hardened _ => .error .invalidKeyIndex
    | .Normal index =>
      let sig := c.hmacSha512 k.chain_code (c.pubSer k.public_key ++ natToBe 4 index)
      let key := sig.take (sig.length / 2)
      let chain_code := sig.drop (sig.length / 2)
      match secretKeyFromSlice key with
      | some il =>
        match addExp k.public_key il with
        | some public_key =>
          .ok { key_index := .Normal index, extended_key := { public_key, chain_code } }
        | none => .error .invalidResultKey
      | none => .error .invalidResultKey

/-- `ExtendedPubKey::from_private_key` (`src/extended_key.rs` lines
196-203). -/
def from_private_key (k : ExtendedPrivKey) : ExtendedPubKey :=
  { public_key := pubOfPriv k.private_key, chain_code := k.chain_code }

end ExtendedPubKey

namespace ChildPubKey

/-- `ChildPubKey::from_private_key` (`src/extended_key.rs` lines
246-253). -/
def from_private_key (child_key : ChildPrivKey) : ChildPubKey :=
  { key_index := child_key.key_index
    extended_key := ExtendedPubKey.from_private_key child_key.extended_key }

end ChildPubKey

/-! ## Chain paths

Rust strings are modelled as their byte sequences (`List Nat`); every
character involved in the path grammar is ASCII.  Byte values used:
`m` = 109, `/` = 47, `H` = 72, the single-quote hardening marker = 39,
`+` = 43, digits = 48..57. -/

/-- `str::split_terminator(sep)`: like `split`, but a trailing empty
substring (arising from a trailing separator, or an empty input) is
omitted. -/
def splitTerminator (sep : Nat) (l : List Nat) : List (List Nat) :=
  let parts := l.splitOn sep
  if parts.getLast? = some [] then parts.dropLast else parts

/-- `u64::from_str` (and the `str::parse::<u64>` call sites): an
optional leading `+` followed by one or more ASCII digits, rejecting
values that overflow 64 bits. -/
def parseU64 (l : List Nat) : Option Nat :=
  let ds := if l.head? = some 43 then l.tail else l
  if ds ≠ [] ∧ ds.all (fun b => 48 ≤ b ∧ b ≤ 57) then
    let v := ds.foldl (fun a b => 10 * a + (b - 48)) 0
    if v < 2 ^ 64 then some v else none
  else none

/-- `u32::from_str` (the `str::parse::<u32>` call sites in
`src/key_chain/chain_path.rs`). -/
def parseU32 (l : List Nat) : Option Nat :=
  let ds := if l.head? = some 43 then l.tail else l
  if ds ≠ [] ∧ ds.all (fun b => 48 ≤ b ∧ b ≤ 57) then
    let v := ds.foldl (fun a b => 10 * a + (b - 48)) 0
    if v < 2 ^ 32 then some v else none
  else none

/-- Decimal digits of `n`, least significant first, with explicit fuel
(`n` itself bounds the number of divisions). -/
def natDigitsRevFuel : Nat → Nat → List Nat
  | 0, _ => []
  | _ + 1, 0 => []
  | fuel + 1, n + 1 => ((n + 1) % 10) :: natDigitsRevFuel fuel ((n + 1) / 10)

/-- The decimal representation of `n` as a byte string, matching Rust
`{}` formatting of an unsigned integer. -/
def natReprBytes (n : Nat) : List Nat :=
  if n = 0 then [48] else ((natDigitsRevFuel n n).reverse.map (fun d => 48 + d))

namespace KeyIndex64

/-- Start of the hardened index range, `2^31` (`src/key_index.rs`). -/
def HARDENED_KEY_START_INDEX : Nat := 2147483648

/-- End of the hardened index range, `2^32 - 1` (`src/key_index.rs`). -/
def HARDENED_KEY_END_INDEX : Nat := 4294967295

end KeyIndex64

/-- `KeyIndex` from `src/key_index.rs` (the `u64` revision, used by
`src/chain_path.rs`). -/
inductive KeyIndex64 where
  | Normal : Nat → KeyIndex64
  | Hardened : Nat → KeyIndex64
deriving Repr, DecidableEq

namespace KeyIndex64

/-- `KeyIndex::is_valid` (`u64` revision). -/
def is_valid : KeyIndex64 → Bool
  | Normal i => i < HARDENED_KEY_START_INDEX
  | Hardened i => HARDENED_KEY_START_INDEX ≤ i ∧ i ≤ HARDENED_KEY_END_INDEX

/-- `KeyIndex::from_index` (`u64` revision; fails with `IndexOutRange`
above `2^32 - 1`). -/
def from_index (i : Nat) : Except Error KeyIndex64 :=
  if i < HARDENED_KEY_START_INDEX then .ok (Normal i)
  else if i ≤ HARDENED_KEY_END_INDEX then .ok (Hardened i)
  else .error .indexOutRange

end KeyIndex64

/-- Reasons carried by `PathError.reason` in `src/chain_path.rs` (the
`String` messages of the source, as an enumeration). -/
inductive PathReason where
  | mustStartWithMaster
  | blankSubpath
  | illegalKeyIndexFormat
  | keyIndexOutOfRange
deriving Repr, DecidableEq

/-- `PathError` from `src/chain_path.rs`. -/
structure PathError where
  level : Nat
  reason : PathReason
deriving Repr, DecidableEq

/-- `ChainPath` from `src/chain_path.rs`: the root marker or a node
wrapping the parent path and a key index. -/
inductive ChainPath where
  | Root : ChainPath
  | Node : ChainPath → KeyIndex64 → ChainPath
deriving Repr, DecidableEq

namespace ChainPath

/-- Parsing of one subpath per loop iteration of
`ChainPath::from_string` (`src/chain_path.rs` lines 49-87), folding
`Node` over the parsed indices.  Note the source computes
`is_hardened` only to strip the marker and then classifies with
`KeyIndex::from_index` on the remaining digits. -/
def fromStringGo : ChainPath → Nat → List (List Nat) → Except PathError ChainPath
  | acc, _, [] => .ok acc
  | acc, level, sub :: rest =>
    match sub.getLast? with
    | none => .error ⟨level, .blankSubpath⟩
    | some lastb =>
      let is_hardened := lastb = 72 ∨ lastb = 39
      let idx_bytes := if is_hardened then sub.dropLast else sub
      match parseU64 idx_bytes with
      | none => .error ⟨level, .illegalKeyIndexFormat⟩
      | some index =>
        match KeyIndex64.from_index index with
        | .ok key_index => fromStringGo (Node acc key_index) (level + 1) rest
        | .error _ => .error ⟨level, .keyIndexOutOfRange⟩

/-- `ChainPath::from_string` (`src/chain_path.rs` lines 40-89). -/
def from_string (path : List Nat) : Except PathError ChainPath :=
  match splitTerminator 47 path with
  | [] => .error ⟨0, .mustStartWithMaster⟩
  | first :: rest =>
    if first = [109] then fromStringGo Root 1 rest
    else .error ⟨0, .mustStartWithMaster⟩

/-- One rendered path level of `ChainPath::to_string`: the decimal raw
index, with `H` (72) appended for hardened indices. -/
def renderIndex : KeyIndex64 → List Nat
  | .Normal i => natReprBytes i
  | .Hardened i => natReprBytes i ++ [72]

/-- The levels pushed by the `ChainPath::to_string` loop, leaf first,
ending with `m` for the root. -/
def collectLevels : ChainPath → List (List Nat)
  | Root => [[109]]
  | Node parent key_index => renderIndex key_index :: collectLevels parent

/-- `ChainPath::to_string` (`src/chain_path.rs` lines 92-113): collect
the levels leaf-to-root, reverse, and join with `/`. -/
def to_string (p : ChainPath) : List Nat :=
  List.intercalate [47] (collectLevels p).reverse

end ChainPath

/-! ## Key chain (`src/key_chain/chain_path.rs`, `src/key_chain.rs`) -/

/-- `SubPath` from `src/key_chain/chain_path.rs`. -/
inductive SubPath where
  | Root : SubPath
  | Child : KeyIndex → SubPath
deriving Repr, DecidableEq

/-- One step of `Iter::next` (`src/key_chain/chain_path.rs` lines
70-102): classify a subpath string.  In this `u32` revision both
`KeyIndex::hardened_from_normalize_index` and `KeyIndex::from_index`
are total, so the `KeyIndexOutOfRange` arm of the source is dead. -/
def subPathParse (sub : List Nat) : Except ChainPathError SubPath :=
  if sub = [109] then .ok .Root
  else if sub = [] then .error .blank
  else
    match sub.getLast? with
    | none => .error .blank
    | some lastb =>
      let is_hardened := lastb = 72 ∨ lastb = 39
      if is_hardened then
        match parseU32 sub.dropLast with
        | none => .error .invalid
        | some index => .ok (.Child (KeyIndex.hardened_from_normalize_index index))
      else
        match parseU32 sub with
        | none => .error .invalid
        | some index => .ok (.Child (KeyIndex.from_index index))

/-- `ChainPath::iter` (`src/key_chain/chain_path.rs` lines 45-47): the
subpath results produced over `split_terminator('/')`, in order. -/
def chainPathIter (path : List Nat) : List (Except ChainPathError SubPath) :=
  (splitTerminator 47 path).map subPathParse

/-- The loop of `DefaultKeyChain::fetch_key` (`src/key_chain.rs` lines
25-32): walk the remaining subpath results, deriving a child at each
`Child` step. -/
def fetchGo (c : Crypto) (key : ExtendedPrivKey) :
    List (Except ChainPathError SubPath) → RRes Error ExtendedPrivKey
  | [] => .ok key
  | item :: rest =>
    match item with
    | .error e => .error (.chainPath e)
    | .ok .Root => .error (.chainPath .invalid)
    | .ok (.Child key_index) =>
      match ExtendedPrivKey.derive_private_key c key key_index with
      | .ok child => fetchGo c child.extended_key rest
      | .error e => .error e
      | .abort => .abort

/-- `DefaultKeyChain::fetch_key` (`src/key_chain.rs` lines 17-35): the
first subpath result must be `Ok(Root)`, then the loop walks the rest
starting from the master key. -/
def fetch_key (c : Crypto) (master_key : ExtendedPrivKey) (path : List Nat) :
    RRes Error ExtendedPrivKey :=
  match chainPathIter path with
  | [] => .error (.chainPath .invalid)
  | first :: rest =>
    match first with
    | .ok .Root => fetchGo c master_key rest
    | _ => .error (.chainPath .invalid)

/-- Folding `derive_private_key` over a list of child indices, keeping
the extended key of each child: the reference walk that
`fetch_key` is claimed to implement. -/
def foldDerive (c : Crypto) (key : ExtendedPrivKey) :
    List KeyIndex → RRes Error ExtendedPrivKey
  | [] => .ok key
  | k :: ks =>
    match ExtendedPrivKey.derive_private_key c key k with
    | .ok child => foldDerive c child.extended_key ks
    | .error e => .error e
    | .abort => .abort

/-! ## Bitcoin extended-key wire codec (`hdwallet-bitcoin/src`) -/

/-- `Network` from `hdwallet-bitcoin/src/lib.rs`. -/
inductive Network where
  | MainNet
  | TestNet
deriving Repr, DecidableEq

/-- secp256k1 library error kinds surfaced by the codec. -/
inductive SecpError where
  | invalidSecretKey
  | invalidPublicKey
deriving Repr, DecidableEq

/-- `Error` from `hdwallet-bitcoin/src/error.rs`. -/
inductive BtcError where
  | misChecksum
  | unknownVersion
  | secp : SecpError → BtcError
  | invalidBase58
deriving Repr, DecidableEq

/-- `KeyType` from `hdwallet-bitcoin/src/serialize.rs`. -/
inductive KeyType where
  | PrivKey
  | PubKey
deriving Repr, DecidableEq

/-- `Version` from `hdwallet-bitcoin/src/serialize.rs`. -/
structure Version where
  network : Network
  key_type : KeyType
deriving Repr, DecidableEq

namespace Version

/-- `Version::from_bytes` (`hdwallet-bitcoin/src/serialize.rs` lines
25-48): the fixed table mapping 4 version bytes to network × key type,
with `UnknownVersion` otherwise. -/
def from_bytes (data : List Nat) : Except BtcError Version :=
  if data = [0x04, 0x88, 0xAD, 0xE4] then .ok ⟨.MainNet, .PrivKey⟩
  else if data = [0x04, 0x88, 0xB2, 0x1E] then .ok ⟨.MainNet, .PubKey⟩
  else if data = [0x04, 0x35, 0x83, 0x94] then .ok ⟨.TestNet, .PrivKey⟩
  else if data = [0x04, 0x35, 0x87, 0xCF] then .ok ⟨.TestNet, .PubKey⟩
  else .error .unknownVersion

/-- `Version::to_bytes` (`hdwallet-bitcoin/src/serialize.rs` lines
50-63). -/
def to_bytes : Version → List Nat
  | ⟨.MainNet, .PrivKey⟩ => [0x04, 0x88, 0xAD, 0xE4]
  | ⟨.MainNet, .PubKey⟩ => [0x04, 0x88, 0xB2, 0x1E]
  | ⟨.TestNet, .PrivKey⟩ => [0x04, 0x35, 0x83, 0x94]
  | ⟨.TestNet, .PubKey⟩ => [0x04, 0x35, 0x87, 0xCF]

end Version

namespace Hdwallet

/-- Modelled from the spec: the `Derivation` metadata struct of the
hdwallet crate is not present under `src/` (only its use sites in
`hdwallet-bitcoin/src/serialize.rs` are); spec section 3 records it as
`{depth: u8, parent_key: Option, key_index: Option<KeyIndex>}`. -/
structure Derivation where
  depth : Nat
  parent_key : Option ExtendedPrivKey
  key_index : Option KeyIndex
deriving Repr, DecidableEq

end Hdwallet

/-- `Derivation::parent_fingerprint` (`hdwallet-bitcoin/src/serialize.rs`
lines 69-82): first 4 bytes of RIPEMD160(SHA256(compressed parent
public key)), or 4 zero bytes when there is no parent key. -/
def parent_fingerprint (c : Crypto) (d : Hdwallet.Derivation) : List Nat :=
  match d.parent_key with
  | some key =>
    (c.ripemd160 (c.sha256 (c.pubSer (ExtendedPubKey.from_private_key key).public_key))).take 4
  | none => [0, 0, 0, 0]

/-- `encode_derivation` (`hdwallet-bitcoin/src/serialize.rs` lines
84-94): version bytes, depth byte, parent fingerprint, then the raw
child index big-endian (zero bytes when there is no index). -/
def encode_derivation (c : Crypto) (version : Version) (d : Hdwallet.Derivation) : List Nat :=
  version.to_bytes ++ natToBe 1 d.depth ++ parent_fingerprint c d ++
    (match d.key_index with
     | some key_index => natToBe 4 key_index.raw_index
     | none => [0, 0, 0, 0])

/-- `decode_derivation` (`hdwallet-bitcoin/src/serialize.rs` lines
96-119).  Indexing below 13 bytes is out of bounds (abort).  A zero
parent fingerprint marks a master key (no key index); otherwise the
key index is rebuilt from the big-endian raw index.  The parent key
itself is never reconstructed. -/
def decode_derivation (buf : List Nat) : RRes BtcError (Version × Hdwallet.Derivation) :=
  if buf.length < 13 then .abort
  else
    match Version.from_bytes (buf.take 4) with
    | .error e => .error e
    | .ok version =>
      let depth := buf.getD 4 0
      let fingerprint := (buf.drop 5).take 4
      let key_index :=
        if fingerprint = [0, 0, 0, 0] then none
        else some (KeyIndex.from_index (beToNat ((buf.drop 9).take 4)))
      .ok (version, { depth, parent_key := none, key_index })

/-- The double-SHA256 checksum appended by `encode_checksum`
(`hdwallet-bitcoin/src/serialize.rs` lines 121-128). -/
def checksumOf (c : Crypto) (buf : List Nat) : List Nat :=
  (c.sha256 (c.sha256 buf)).take 4

/-- `verify_checksum` (`hdwallet-bitcoin/src/serialize.rs` lines
130-140): recompute the double SHA-256 of bytes 0..78 and compare with
bytes 78..82.  Both slices are out of bounds (abort) on input shorter
than 82 bytes. -/
def verify_checksum (c : Crypto) (buf : List Nat) : RRes BtcError Unit :=
  if buf.length < 82 then .abort
  else if checksumOf c (buf.take 78) = (buf.drop 78).take 4 then .ok ()
  else .error .misChecksum

/-- Modelled from the spec and the construction sites in
`hdwallet-bitcoin/src/serialize.rs`: the `PrivKey` struct of
hdwallet-bitcoin (its definition is not under `src/`): a network tag,
derivation metadata and an extended private key. -/
structure PrivKey where
  network : Network
  derivation : Hdwallet.Derivation
  extended_key : ExtendedPrivKey
deriving Repr, DecidableEq

/-- Modelled from the spec and the construction sites in
`hdwallet-bitcoin/src/serialize.rs`: the `PubKey` struct of
hdwallet-bitcoin (its definition is not under `src/`). -/
structure PubKey where
  network : Network
  derivation : Hdwallet.Derivation
  extended_key : ExtendedPubKey
deriving Repr, DecidableEq

namespace PrivKey

/-- `Serialize<Vec<u8>> for PrivKey` (`hdwallet-bitcoin/src/serialize.rs`
lines 142-160): derivation header, chain code, `0x00`, the 32 secret
key bytes — asserted to total 78 bytes (abort otherwise) — then the
4-byte checksum. -/
def serialize (c : Crypto) (k : PrivKey) : RRes BtcError (List Nat) :=
  let buf := encode_derivation c ⟨k.network, .PrivKey⟩ k.derivation ++
    k.extended_key.chain_code ++ [0] ++ natToBe 32 k.extended_key.private_key
  if buf.length = 78 then .ok (buf ++ checksumOf c buf) else .abort

/-- `Deserialize<Vec<u8>> for PrivKey` (`hdwallet-bitcoin/src/serialize.rs`
lines 193-208): verify the checksum, decode the derivation header,
then read the chain code (bytes 13..45) and the secret key (bytes
46..78). -/
def deserialize (c : Crypto) (data : List Nat) : RRes BtcError PrivKey :=
  match verify_checksum c data with
  | .error e => .error e
  | .abort => .abort
  | .ok _ =>
    match decode_derivation data with
    | .error e => .error e
    | .abort => .abort
    | .ok (version, derivation) =>
      let chain_code := (data.drop 13).take 32
      match secretKeyFromSlice ((data.drop 46).take 32) with
      | none => .error (.secp .invalidSecretKey)
      | some private_key =>
        .ok { network := version.network, derivation
              extended_key := { private_key, chain_code } }

end PrivKey

namespace PubKey

/-- `Serialize<Vec<u8>> for PubKey` (`hdwallet-bitcoin/src/serialize.rs`
lines 168-185): derivation header, chain code, the 33 compressed
public key bytes — asserted to total 78 bytes — then the checksum. -/
def serialize (c : Crypto) (k : PubKey) : RRes BtcError (List Nat) :=
  let buf := encode_derivation c ⟨k.network, .PubKey⟩ k.derivation ++
    k.extended_key.chain_code ++ c.pubSer k.extended_key.public_key
  if buf.length = 78 then .ok (buf ++ checksumOf c buf) else .abort

/-- `Deserialize<Vec<u8>> for PubKey` (`hdwallet-bitcoin/src/serialize.rs`
lines 217-232): verify the checksum, decode the derivation header,
then read the chain code (bytes 13..45) and the compressed public key
(bytes 45..78). -/
def deserialize (c : Crypto) (data : List Nat) : RRes BtcError PubKey :=
  match verify_checksum c data with
  | .error e => .error e
  | .abort => .abort
  | .ok _ =>
    match decode_derivation data with
    | .error e => .error e
    | .abort => .abort
    | .ok (version, derivation) =>
      let chain_code := (data.drop 13).take 32
      match c.pubParse ((data.drop 45).take 33) with
      | none => .error (.secp .invalidPublicKey)
      | some public_key =>
        .ok { network := version.network, derivation
              extended_key := { public_key, chain_code } }

end PubKey

/-! ## Concrete collaborator instances used by witnesses -/

/-- A concrete `Crypto` with a chosen HMAC-SHA512, constant hashes and
the big-endian point codec; used to instantiate universally quantified
theorems at concrete inputs. -/
def mkCrypto (hm : List Nat → List Nat → List Nat)
    (hlen : ∀ k d, (hm k d).length = 64) : Crypto where
  sha256 := fun _ => List.replicate 32 0
  ripemd160 := fun _ => List.replicate 20 0
  hmacSha512 := hm
  pubSer := fun p => natToBe 33 p
  pubParse := fun l => if l.length = 33 then some (beToNat l) else none
  sha256_len := fun _ => by simp
  ripemd160_len := fun _ => by simp
  hmacSha512_len := hlen
  pubSer_len := fun _ => natToBe_length 33 _

/-- Concrete collaborators whose HMAC returns `I_L = 2`, `I_R` the
encoding of `3`. -/
def cryptoA : Crypto :=
  mkCrypto (fun _ _ => natToBe 32 2 ++ natToBe 32 3)
    (fun _ _ => by simp [natToBe_length])

/-- Concrete collaborators whose HMAC returns `I_L = secpOrder - 1`:
tweak-adding it to the secret key `1` yields the zero scalar. -/
def cryptoZeroSum : Crypto :=
  mkCrypto (fun _ _ => natToBe 32 (secpOrder - 1) ++ natToBe 32 7)
    (fun _ _ => by simp [natToBe_length])

/-- A concrete extended private key: secret scalar 1, zero chain code. -/
def keyOne : ExtendedPrivKey := ⟨1, List.replicate 32 0⟩

/-! ## C3 -/

/-- C3: `derive_public_key` on any `ExtendedPubKey` with a `Hardened`
`KeyIndex` always returns exactly the `InvalidKeyIndex` error: it never
succeeds and never returns any other error kind. -/
theorem derive_public_key_hardened_fails (c : Crypto) (k : ExtendedPubKey) (i : Nat) :
    ExtendedPubKey.derive_public_key c k (.Hardened i) = .error .invalidKeyIndex := by
  unfold ExtendedPubKey.derive_public_key
  split <;> rfl

/-! ## C2 -/

/-- C2: evaluating `Deserialize<Vec<u8>>` for `PrivKey` and `PubKey` at
wire input shorter than 82 bytes: `verify_checksum` slices
`buf[0..78]` and `buf[78..82]` out of bounds, so the code aborts (a
Rust slice-index panic) instead of returning an error. -/
theorem deserialize_short_input_aborts (c : Crypto) (data : List Nat)
    (h : data.length < 82) :
    PrivKey.deserialize c data = .abort ∧ PubKey.deserialize c data = .abort := by
  constructor <;> simp [PrivKey.deserialize, PubKey.deserialize, verify_checksum, h]

/-- C2 witness: the empty byte vector is shorter than 82 bytes and
deserializing it aborts. -/
theorem deserialize_short_input_aborts_witness :
    PrivKey.deserialize cryptoA [] = .abort ∧ PubKey.deserialize cryptoA [] = .abort :=
  deserialize_short_input_aborts cryptoA [] (by decide)

/-! ## C6 -/

/-- C6: `ExtendedPrivKey::with_seed` computes HMAC-SHA512 keyed by the
literal `"Bitcoin seed"` over the seed; with `I_L` the left 32 bytes
and `I_R` the right 32 bytes, it returns the key `{private_key = I_L,
chain_code = I_R}` when `I_L` is a nonzero scalar below the curve
order, and fails with `InvalidResultKey` exactly otherwise. -/
theorem with_seed_spec (c : Crypto) (seed : List Nat) :
    (0 < beToNat ((c.hmacSha512 bitcoinSeedBytes seed).take 32) ∧
       beToNat ((c.hmacSha512 bitcoinSeedBytes seed).take 32) < secpOrder →
     ExtendedPrivKey.with_seed c seed =
       .ok ⟨beToNat ((c.hmacSha512 bitcoinSeedBytes seed).take 32),
            (c.hmacSha512 bitcoinSeedBytes seed).drop 32⟩) ∧
    (¬(0 < beToNat ((c.hmacSha512 bitcoinSeedBytes seed).take 32) ∧
       beToNat ((c.hmacSha512 bitcoinSeedBytes seed).take 32) < secpOrder) →
     ExtendedPrivKey.with_seed c seed = .error .invalidResultKey) := by
  have hlen := c.hmacSha512_len bitcoinSeedBytes seed
  have htake : ((c.hmacSha512 bitcoinSeedBytes seed).take 32).length = 32 := by
    simp [List.length_take, hlen]
  constructor
  · intro hb
    simp [ExtendedPrivKey.with_seed, hlen, secretKeyFromSlice, htake, hb.1, hb.2]
  · intro hb
    rcases Decidable.not_and_iff_or_not.mp hb with h0 | h0 <;>
      simp [ExtendedPrivKey.with_seed, hlen, secretKeyFromSlice, htake, h0]

/-- C6 witness: with an HMAC returning `I_L = 1`, `I_R = natToBe 32 2`,
the master key of the empty seed is `{private_key = 1, chain_code =
natToBe 32 2}`. -/
theorem with_seed_spec_witness :
    ExtendedPrivKey.with_seed
        (mkCrypto (fun _ _ => natToBe 32 1 ++ natToBe 32 2)
          (fun _ _ => by simp [natToBe_length])) [] =
      .ok ⟨1, natToBe 32 2⟩ := by
  have h := (with_seed_spec
    (mkCrypto (fun _ _ => natToBe 32 1 ++ natToBe 32 2)
      (fun _ _ => by simp [natToBe_length])) []).1 (by decide)
  simpa using h


/-! ## C5 -/

/-- Unfolding of `derive_private_key` at a valid hardened index: the
HMAC-SHA512 signature is split into halves `I_L` (validated as a
secret key) and `I_R` (the child chain code), and the parent key is
tweak-added to `I_L`. -/
theorem derive_hardened_eq (c : Crypto) (k : ExtendedPrivKey) (i : Nat)
    (hv : (KeyIndex.Hardened i).is_valid = true) :
    ExtendedPrivKey.derive_private_key c k (.Hardened i) =
      match secretKeyFromSlice ((ExtendedPrivKey.sign_hardended_key c k i).take 32) with
      | some il =>
        match secretAddAssign il k.private_key with
        | some pk => .ok ⟨.Hardened i, ⟨pk, (ExtendedPrivKey.sign_hardended_key c k i).drop 32⟩⟩
        | none => .abort
      | none => .error .invalidResultKey := by
  have hlen : (ExtendedPrivKey.sign_hardended_key c k i).length = 64 :=
    c.hmacSha512_len _ _
  unfold ExtendedPrivKey.derive_private_key
  rw [if_neg (by simp [hv])]
  dsimp only
  rw [hlen]


/-- `SecretKey::from_slice` on a 32-byte input only checks the scalar
range. -/
theorem secretKeyFromSlice_of_len32 (l : List Nat) (h32 : l.length = 32) :
    secretKeyFromSlice l =
      if 0 < beToNat l ∧ beToNat l < secpOrder then some (beToNat l) else none := by
  unfold secretKeyFromSlice
  rw [h32]
  simp

/-- C5 (amended): for every valid hardened index, `derive_private_key`
computes HMAC-SHA512 keyed by the parent chain code over exactly
`0x00 ++ parent_private_key (32 bytes) ++ raw index big-endian (4
bytes)`; it fails with `InvalidResultKey` when `I_L` is not a nonzero
scalar below the curve order; when `I_L` is valid it returns the child
`{private_key = (I_L + parent) mod order, chain_code = I_R}` — except
that when `(I_L + parent) mod order = 0` (an invalid result key) the
code aborts via `expect("add point")` rather than returning
`InvalidResultKey`. -/
theorem derive_hardened_spec (c : Crypto) (k : ExtendedPrivKey) (i : Nat)
    (hv : (KeyIndex.Hardened i).is_valid = true) :
    (¬(0 < beToNat ((c.hmacSha512 k.chain_code
          ([0] ++ natToBe 32 k.private_key ++ natToBe 4 i)).take 32) ∧
       beToNat ((c.hmacSha512 k.chain_code
          ([0] ++ natToBe 32 k.private_key ++ natToBe 4 i)).take 32) < secpOrder) →
     ExtendedPrivKey.derive_private_key c k (.Hardened i) = .error .invalidResultKey) ∧
    ((0 < beToNat ((c.hmacSha512 k.chain_code
          ([0] ++ natToBe 32 k.private_key ++ natToBe 4 i)).take 32) ∧
      beToNat ((c.hmacSha512 k.chain_code
          ([0] ++ natToBe 32 k.private_key ++ natToBe 4 i)).take 32) < secpOrder) →
     (beToNat ((c.hmacSha512 k.chain_code
          ([0] ++ natToBe 32 k.private_key ++ natToBe 4 i)).take 32) +
        k.private_key) % secpOrder = 0 →
     ExtendedPrivKey.derive_private_key c k (.Hardened i) = .abort) ∧
    ((0 < beToNat ((c.hmacSha512 k.chain_code
          ([0] ++ natToBe 32 k.private_key ++ natToBe 4 i)).take 32) ∧
      beToNat ((c.hmacSha512 k.chain_code
          ([0] ++ natToBe 32 k.private_key ++ natToBe 4 i)).take 32) < secpOrder) →
     (beToNat ((c.hmacSha512 k.chain_code
          ([0] ++ natToBe 32 k.private_key ++ natToBe 4 i)).take 32) +
        k.private_key) % secpOrder ≠ 0 →
     ExtendedPrivKey.derive_private_key c k (.Hardened i) =
       .ok ⟨.Hardened i,
            ⟨(beToNat ((c.hmacSha512 k.chain_code
                ([0] ++ natToBe 32 k.private_key ++ natToBe 4 i)).take 32) +
                k.private_key) % secpOrder,
             (c.hmacSha512 k.chain_code
                ([0] ++ natToBe 32 k.private_key ++ natToBe 4 i)).drop 32⟩⟩) := by
  have heq := derive_hardened_eq c k i hv
  have hdata : ExtendedPrivKey.sign_hardended_key c k i =
      c.hmacSha512 k.chain_code ([0] ++ natToBe 32 k.private_key ++ natToBe 4 i) := rfl
  rw [hdata] at heq
  have htake : ((c.hmacSha512 k.chain_code
      ([0] ++ natToBe 32 k.private_key ++ natToBe 4 i)).take 32).length = 32 := by
    simp [List.length_take, c.hmacSha512_len]
  rw [secretKeyFromSlice_of_len32 _ htake] at heq
  refine ⟨?_, ?_, ?_⟩
  · intro hb
    rw [heq, if_neg hb]
  · intro hb hz
    rw [heq, if_pos hb]
    dsimp only [secretAddAssign]
    rw [if_pos hz]
  · intro hb hz
    rw [heq, if_pos hb]
    dsimp only [secretAddAssign]
    rw [if_neg hz]


/-- C5 counterexample: with parent secret key 1 and an HMAC whose left
half encodes `secpOrder - 1` (a valid nonzero scalar), the derived
scalar is `(secpOrder - 1 + 1) mod secpOrder = 0` and
`derive_private_key` at the valid hardened index `2^31` aborts (the
`expect("add point")` of the source) instead of returning the
`InvalidResultKey` error. -/
theorem derive_hardened_zero_sum_aborts :
    (KeyIndex.Hardened 2147483648).is_valid = true ∧
    0 < beToNat ((cryptoZeroSum.hmacSha512 keyOne.chain_code
        ([0] ++ natToBe 32 keyOne.private_key ++ natToBe 4 2147483648)).take 32) ∧
    beToNat ((cryptoZeroSum.hmacSha512 keyOne.chain_code
        ([0] ++ natToBe 32 keyOne.private_key ++ natToBe 4 2147483648)).take 32) <
      secpOrder ∧
    (beToNat ((cryptoZeroSum.hmacSha512 keyOne.chain_code
        ([0] ++ natToBe 32 keyOne.private_key ++ natToBe 4 2147483648)).take 32) +
      keyOne.private_key) % secpOrder = 0 ∧
    ExtendedPrivKey.derive_private_key cryptoZeroSum keyOne (.Hardened 2147483648) =
      .abort := by
  refine ⟨by decide, by decide, by decide, by decide, by decide⟩

/-- C5 witness: with an HMAC returning `I_L = 2` and parent secret key
1, hardened derivation at index `2^31` yields child scalar 3 and chain
code `natToBe 32 3`. -/
theorem derive_hardened_spec_witness :
    ExtendedPrivKey.derive_private_key cryptoA keyOne (.Hardened 2147483648) =
      .ok ⟨.Hardened 2147483648, ⟨3, natToBe 32 3⟩⟩ := by
  have h := (derive_hardened_spec cryptoA keyOne 2147483648 (by decide)).2.2
    (by decide) (by decide)
  simpa using h

/-! ## C4 -/

/-- Unfolding of `derive_private_key` at a valid normal index. -/
theorem derive_normal_eq (c : Crypto) (k : ExtendedPrivKey) (i : Nat)
    (hv : (KeyIndex.Normal i).is_valid = true) :
    ExtendedPrivKey.derive_private_key c k (.Normal i) =
      match secretKeyFromSlice ((ExtendedPrivKey.sign_normal_key c k i).take 32) with
      | some il =>
        match secretAddAssign il k.private_key with
        | some pk => .ok ⟨.Normal i, ⟨pk, (ExtendedPrivKey.sign_normal_key c k i).drop 32⟩⟩
        | none => .abort
      | none => .error .invalidResultKey := by
  have hlen : (ExtendedPrivKey.sign_normal_key c k i).length = 64 :=
    c.hmacSha512_len _ _
  unfold ExtendedPrivKey.derive_private_key
  rw [if_neg (by simp [hv])]
  dsimp only
  rw [hlen]

/-- Unfolding of `derive_public_key` at a valid normal index. -/
theorem derive_public_normal_eq (c : Crypto) (q : ExtendedPubKey) (i : Nat)
    (hv : (KeyIndex.Normal i).is_valid = true) :
    ExtendedPubKey.derive_public_key c q (.Normal i) =
      match secretKeyFromSlice
          ((c.hmacSha512 q.chain_code (c.pubSer q.public_key ++ natToBe 4 i)).take 32) with
      | some il =>
        match addExp q.public_key il with
        | some pk =>
          .ok ⟨.Normal i,
               ⟨pk, (c.hmacSha512 q.chain_code (c.pubSer q.public_key ++ natToBe 4 i)).drop 32⟩⟩
        | none => .error .invalidResultKey
      | none => .error .invalidResultKey := by
  have hlen : (c.hmacSha512 q.chain_code (c.pubSer q.public_key ++ natToBe 4 i)).length = 64 :=
    c.hmacSha512_len _ _
  unfold ExtendedPubKey.derive_public_key
  rw [if_neg (by simp [hv])]
  dsimp only
  rw [hlen]

/-- `derive_private_key` at an invalid index short-circuits. -/
theorem derive_private_key_invalid (c : Crypto) (k : ExtendedPrivKey) (ki : KeyIndex)
    (hv : ¬ki.is_valid = true) :
    ExtendedPrivKey.derive_private_key c k ki = .error .invalidKeyIndex := by
  unfold ExtendedPrivKey.derive_private_key
  rw [if_pos (by simp [hv])]

/-- C4: converting the private child derived at a normal index into a
public key agrees with deriving a public child at that index from the
parent's public key, whenever both derivations succeed. -/
theorem pub_priv_consistency (c : Crypto) (parent : ExtendedPrivKey) (i : Nat)
    (cp : ChildPrivKey) (cq : ChildPubKey)
    (hpriv : ExtendedPrivKey.derive_private_key c parent (.Normal i) = .ok cp)
    (hpub : ExtendedPubKey.derive_public_key c
        (ExtendedPubKey.from_private_key parent) (.Normal i) = .ok cq) :
    ChildPubKey.from_private_key cp = cq := by
  by_cases hv : (KeyIndex.Normal i).is_valid = true
  · rw [derive_normal_eq c parent i hv] at hpriv
    rw [derive_public_normal_eq c (ExtendedPubKey.from_private_key parent) i hv] at hpub
    have hsig : ExtendedPrivKey.sign_normal_key c parent i =
        c.hmacSha512 (ExtendedPubKey.from_private_key parent).chain_code
          (c.pubSer (ExtendedPubKey.from_private_key parent).public_key ++ natToBe 4 i) := rfl
    rw [← hsig] at hpub
    rcases hil : secretKeyFromSlice ((ExtendedPrivKey.sign_normal_key c parent i).take 32) with
      _ | il
    · rw [hil] at hpriv
      exact absurd hpriv (by simp)
    · rw [hil] at hpriv hpub
      dsimp only at hpriv hpub
      rcases hadd : secretAddAssign il parent.private_key with _ | pk
      · rw [hadd] at hpriv
        exact absurd hpriv (by simp)
      · rw [hadd] at hpriv
        have hz : (il + parent.private_key) % secpOrder ≠ 0 := by
          by_contra hz
          simp [secretAddAssign, hz] at hadd
        have hpk : pk = (il + parent.private_key) % secpOrder := by
          simp [secretAddAssign, hz] at hadd
          exact hadd.symm
        have haddExp : addExp (ExtendedPubKey.from_private_key parent).public_key il =
            some ((il + parent.private_key) % secpOrder) := by
          unfold addExp
          dsimp only [ExtendedPubKey.from_private_key, pubOfPriv]
          rw [Nat.add_comm parent.private_key il, if_neg hz]
        rw [haddExp] at hpub
        cases hpriv
        cases hpub
        simp [ChildPubKey.from_private_key, ExtendedPubKey.from_private_key, pubOfPriv, hpk]
  · rw [derive_private_key_invalid c parent _ hv] at hpriv
    exact absurd hpriv (by simp)

/-- C4 witness: with an HMAC returning `I_L = 2`, parent secret key 1
and normal index 0, both routes produce the child public key 3 with
chain code `natToBe 32 3`. -/
theorem pub_priv_consistency_witness :
    ChildPubKey.from_private_key ⟨.Normal 0, ⟨3, natToBe 32 3⟩⟩ =
      ⟨.Normal 0, ⟨3, natToBe 32 3⟩⟩ :=
  pub_priv_consistency cryptoA keyOne 0 ⟨.Normal 0, ⟨3, natToBe 32 3⟩⟩
    ⟨.Normal 0, ⟨3, natToBe 32 3⟩⟩ (by decide) (by decide)

/-! ## C10 -/

/-- C10: in `decode_derivation`, a record whose 4-byte parent
fingerprint (bytes 5..9) is all zeros is classified as a master key:
its metadata has no key index, and the 4 child-index bytes (9..13) are
ignored whatever their value; a record with a nonzero fingerprint gets
its key index rebuilt from the big-endian raw index; in both cases the
decoded parent key is absent. -/
theorem decode_derivation_spec :
    (∀ buf v d, decode_derivation buf = .ok (v, d) →
       d.parent_key = none ∧
       ((buf.drop 5).take 4 = [0, 0, 0, 0] → d.key_index = none) ∧
       ((buf.drop 5).take 4 ≠ [0, 0, 0, 0] →
          d.key_index = some (KeyIndex.from_index (beToNat ((buf.drop 9).take 4))))) ∧
    (∀ pre idx idx2 post, pre.length = 9 → idx.length = 4 → idx2.length = 4 →
       pre.drop 5 = [0, 0, 0, 0] →
       decode_derivation (pre ++ idx ++ post) = decode_derivation (pre ++ idx2 ++ post)) := by
  constructor
  · intro buf v d hok
    unfold decode_derivation at hok
    by_cases hlen : buf.length < 13
    · rw [if_pos hlen] at hok
      cases hok
    · rw [if_neg hlen] at hok
      rcases hver : Version.from_bytes (buf.take 4) with e | ver
      · rw [hver] at hok
        cases hok
      · rw [hver] at hok
        dsimp only at hok
        by_cases hfp : (buf.drop 5).take 4 = [0, 0, 0, 0]
        · rw [if_pos hfp] at hok
          cases hok
          exact ⟨rfl, fun _ => rfl, fun h => absurd hfp h⟩
        · rw [if_neg hfp] at hok
          cases hok
          exact ⟨rfl, fun h => absurd h hfp, fun _ => rfl⟩
  · intro pre idx idx2 post hpre hidx hidx2 hfp
    have hlen1 : ¬(pre ++ idx ++ post).length < 13 := by
      simp only [List.length_append, hpre, hidx]
      omega
    have hlen2 : ¬(pre ++ idx2 ++ post).length < 13 := by
      simp only [List.length_append, hpre, hidx2]
      omega
    have htake4 : ∀ l : List Nat, l.length = 4 →
        ∀ rest : List Nat, (pre ++ l ++ rest).take 4 = pre.take 4 := by
      intro l hl rest
      rw [List.append_assoc, List.take_append_of_le_length (by omega)]
    have hget : ∀ l : List Nat, l.length = 4 →
        ∀ rest : List Nat, (pre ++ l ++ rest).getD 4 0 = pre.getD 4 0 := by
      intro l hl rest
      rw [List.append_assoc, List.getD_append _ _ _ _ (by omega)]
    have hdrop5 : ∀ l : List Nat, l.length = 4 →
        ∀ rest : List Nat, ((pre ++ l ++ rest).drop 5).take 4 = [0, 0, 0, 0] := by
      intro l hl rest
      rw [List.append_assoc, List.drop_append_of_le_length (by omega)]
      rw [List.take_append_of_le_length (by simp [List.length_drop, hpre])]
      rw [← hfp]
      have : (pre.drop 5).length = 4 := by simp [List.length_drop, hpre]
      rw [List.take_of_length_le (le_of_eq this)]
    unfold decode_derivation
    rw [if_neg hlen1, if_neg hlen2, htake4 idx hidx post, htake4 idx2 hidx2 post]
    rcases Version.from_bytes (pre.take 4) with e | ver
    · rfl
    · dsimp only
      rw [hget idx hidx post, hget idx2 hidx2 post,
        if_pos (hdrop5 idx hidx post), if_pos (hdrop5 idx2 hidx2 post)]

/-- C10 witness: with a zero fingerprint, two records differing only in
the child-index bytes decode identically. -/
theorem decode_derivation_spec_witness :
    decode_derivation ([4, 136, 173, 228, 3, 0, 0, 0, 0] ++ [9, 9, 9, 9] ++ []) =
      decode_derivation ([4, 136, 173, 228, 3, 0, 0, 0, 0] ++ [1, 2, 3, 4] ++ []) :=
  decode_derivation_spec.2 [4, 136, 173, 228, 3, 0, 0, 0, 0] [9, 9, 9, 9] [1, 2, 3, 4] []
    (by decide) (by decide) (by decide) (by decide)

/-! ## C8 -/

/-- C8 counterexample: the trailing separator of `"m/1/"` is dropped by
`split_terminator`, so the path parses to `[Root, Child(Normal 1)]`
with no `Blank` error at all. -/
theorem chain_path_iter_trailing_sep_no_blank :
    chainPathIter [109, 47, 49, 47] = [.ok .Root, .ok (.Child (.Normal 1))] := by
  decide

/-- C8 (amended): every empty segment surviving `split_terminator` —
i.e. one produced by consecutive separators (or a leading separator),
but not by a single trailing separator, which `split_terminator`
drops — is reported as the `Blank` error. -/
theorem chain_path_iter_blank (path : List Nat)
    (h : [] ∈ splitTerminator 47 path) :
    (.error .blank : Except ChainPathError SubPath) ∈ chainPathIter path := by
  have hparse : subPathParse [] = .error .blank := rfl
  exact hparse ▸ List.mem_map_of_mem subPathParse h

/-- C8 witness: the consecutive separator in `"m//1"` yields an empty
segment and the iterator reports `Blank`. -/
theorem chain_path_iter_blank_witness :
    (.error .blank : Except ChainPathError SubPath) ∈ chainPathIter [109, 47, 47, 49] :=
  chain_path_iter_blank [109, 47, 47, 49] (by decide)

/-! ## C9 -/

/-- The `fetch_key` loop over successfully parsed child steps is the
left fold of `derive_private_key`. -/
theorem fetchGo_map_children (c : Crypto) (key : ExtendedPrivKey) (ks : List KeyIndex) :
    fetchGo c key (ks.map (fun k => .ok (.Child k))) = foldDerive c key ks := by
  induction ks generalizing key with
  | nil => rfl
  | cons k ks ih =>
    simp only [List.map_cons, fetchGo, foldDerive]
    rcases ExtendedPrivKey.derive_private_key c key k with child | e | _
    · exact ih child.extended_key
    · rfl
    · rfl

/-- After successfully deriving through the prefix, the `fetch_key`
loop surfaces the first parse error directly. -/
theorem fetchGo_propagates_error (c : Crypto) (key : ExtendedPrivKey)
    (ks : List KeyIndex) (e : ChainPathError)
    (rest : List (Except ChainPathError SubPath)) (k2 : ExtendedPrivKey)
    (hfold : foldDerive c key ks = .ok k2) :
    fetchGo c key (ks.map (fun k => .ok (.Child k)) ++ .error e :: rest) =
      .error (.chainPath e) := by
  induction ks generalizing key with
  | nil => rfl
  | cons k ks ih =>
    simp only [List.map_cons, List.cons_append, fetchGo]
    simp only [foldDerive] at hfold
    rcases hd : ExtendedPrivKey.derive_private_key c key k with child | e2 | _ <;>
      rw [hd] at hfold
    · exact ih child.extended_key hfold
    · cases hfold
    · cases hfold

/-- C9: `fetch_key` (i) returns the chain-path `Invalid` error whenever
the first parsed step is not `Root`; (ii) when the parsed steps are
`Root` followed by child steps, it equals the left fold of
`derive_private_key` over the child indices starting from the master
key (so any derivation failure is surfaced unchanged, with no retry);
(iii) a segment parse error following child steps whose derivations
succeed is propagated immediately as that error. -/
theorem fetch_key_spec (c : Crypto) (m : ExtendedPrivKey) :
    (∀ path, (chainPathIter path).head? ≠ some (.ok .Root) →
       fetch_key c m path = .error (.chainPath .invalid)) ∧
    (∀ path ks, chainPathIter path = .ok .Root :: ks.map (fun k => .ok (.Child k)) →
       fetch_key c m path = foldDerive c m ks) ∧
    (∀ path ks e rest k2,
       chainPathIter path =
         .ok .Root :: (ks.map (fun k => .ok (.Child k)) ++ .error e :: rest) →
       foldDerive c m ks = .ok k2 →
       fetch_key c m path = .error (.chainPath e)) := by
  refine ⟨?_, ?_, ?_⟩
  · intro path hhead
    unfold fetch_key
    rcases hit : chainPathIter path with _ | ⟨first, rest⟩
    · rfl
    · rw [hit] at hhead
      simp only [List.head?_cons, ne_eq, Option.some.injEq] at hhead
      rcases first with x | sp
      · rfl
      · rcases sp with _ | k
        · exact absurd rfl hhead
        · rfl
  · intro path ks hit
    unfold fetch_key
    rw [hit]
    exact fetchGo_map_children c m ks
  · intro path ks e rest k2 hit hfold
    unfold fetch_key
    rw [hit]
    exact fetchGo_propagates_error c m ks e rest k2 hfold

/-- C9 witness: the path `"m"` parses to the single step `Root` and
`fetch_key` returns the master key (the empty fold). -/
theorem fetch_key_spec_witness :
    fetch_key cryptoA keyOne [109] = foldDerive cryptoA keyOne [] :=
  (fetch_key_spec cryptoA keyOne).2.1 [109] [] (by decide)

/-! ## C1 -/

/-- `Version::to_bytes` always yields 4 bytes. -/
theorem version_to_bytes_length (v : Version) : v.to_bytes.length = 4 := by
  rcases v with ⟨n, t⟩
  cases n <;> cases t <;> rfl

/-- Deserializing a private-key record of the canonical master shape
(zero fingerprint and index, `0x00` key pad) recovers its fields. -/
theorem deserializePriv_of_shape (c : Crypto) (net : Network) (v1 v2 v3 v4 dep priv : Nat)
    (chain : List Nat)
    (hfb : Version.from_bytes [v1, v2, v3, v4] = .ok ⟨net, .PrivKey⟩)
    (hchain : chain.length = 32) (h2 : 0 < priv) (h3 : priv < secpOrder) :
    PrivKey.deserialize c
        ((v1 :: v2 :: v3 :: v4 :: dep :: 0 :: 0 :: 0 :: 0 :: 0 :: 0 :: 0 :: 0 ::
            (chain ++ (0 :: natToBe 32 priv))) ++
          checksumOf c (v1 :: v2 :: v3 :: v4 :: dep :: 0 :: 0 :: 0 :: 0 :: 0 :: 0 :: 0 :: 0 ::
            (chain ++ (0 :: natToBe 32 priv)))) =
      .ok ⟨net, ⟨dep, none, none⟩, ⟨priv, chain⟩⟩ := by
  have hdrop13 : (v1 :: v2 :: v3 :: v4 :: dep :: 0 :: 0 :: 0 :: 0 :: 0 :: 0 :: 0 :: 0 ::
      (chain ++ (0 :: natToBe 32 priv))).drop 13 = chain ++ (0 :: natToBe 32 priv) := rfl
  generalize hDdef : (v1 :: v2 :: v3 :: v4 :: dep :: 0 :: 0 :: 0 :: 0 :: 0 :: 0 :: 0 :: 0 ::
      (chain ++ (0 :: natToBe 32 priv))) = D
  rw [hDdef] at hdrop13
  have hDlen : D.length = 78 := by
    rw [← hDdef]
    simp only [List.length_cons, List.length_append, hchain, natToBe_length]
  have hcs : (checksumOf c D).length = 4 := by
    simp [checksumOf, List.length_take, c.sha256_len]
  have htake78 : (D ++ checksumOf c D).take 78 = D := List.take_left' hDlen
  have hdrop78 : (D ++ checksumOf c D).drop 78 = checksumOf c D := List.drop_left' hDlen
  have hver : verify_checksum c (D ++ checksumOf c D) = .ok () := by
    unfold verify_checksum
    rw [if_neg (by rw [List.length_append, hDlen, hcs]; omega)]
    rw [htake78, hdrop78, List.take_of_length_le (le_of_eq hcs)]
    simp
  have ht4 : (D ++ checksumOf c D).take 4 = [v1, v2, v3, v4] := by
    rw [List.take_append_of_le_length (by rw [hDlen]; omega), ← hDdef]
    rfl
  have hg4 : (D ++ checksumOf c D).getD 4 0 = dep := by
    rw [List.getD_append _ _ _ _ (by rw [hDlen]; omega), ← hDdef]
    rfl
  have h54 : ((D ++ checksumOf c D).drop 5).take 4 = [0, 0, 0, 0] := by
    rw [List.drop_append_of_le_length (by rw [hDlen]; omega)]
    rw [List.take_append_of_le_length (by rw [List.length_drop, hDlen]; omega)]
    rw [← hDdef]
    rfl
  have hdec : decode_derivation (D ++ checksumOf c D) =
      .ok (⟨net, .PrivKey⟩, ⟨dep, none, none⟩) := by
    unfold decode_derivation
    rw [if_neg (by rw [List.length_append, hDlen]; omega)]
    rw [ht4, hfb]
    dsimp only
    rw [hg4, h54, if_pos rfl]
  have hchain' : ((D ++ checksumOf c D).drop 13).take 32 = chain := by
    rw [List.drop_append_of_le_length (by rw [hDlen]; omega), hdrop13]
    rw [List.append_assoc]
    exact List.take_left' hchain
  have hpriv' : ((D ++ checksumOf c D).drop 46).take 32 = natToBe 32 priv := by
    rw [List.drop_append_of_le_length (by rw [hDlen]; omega)]
    have h46 : D.drop 46 = (D.drop 13).drop 33 := by
      rw [List.drop_drop]
    rw [h46, hdrop13]
    rw [show (33 : Nat) = chain.length + 1 by rw [hchain]]
    rw [List.drop_append]
    rw [List.drop_one, List.tail_cons, List.take_append_of_le_length
      (by rw [natToBe_length]), List.take_of_length_le (le_of_eq (natToBe_length 32 priv))]
  unfold PrivKey.deserialize
  rw [hver]
  rw [hdec]
  dsimp only
  rw [hchain', hpriv']
  rw [secretKeyFromSlice_of_len32 _ (natToBe_length 32 priv)]
  rw [beToNat_natToBe_of_lt (Nat.lt_trans h3 secpOrder_lt)]
  rw [if_pos ⟨h2, h3⟩]

/-- Deserializing a public-key record of the canonical master shape
recovers its fields. -/
theorem deserializePub_of_shape (c : Crypto) (net : Network) (v1 v2 v3 v4 dep pub : Nat)
    (chain : List Nat)
    (hfb : Version.from_bytes [v1, v2, v3, v4] = .ok ⟨net, .PubKey⟩)
    (hchain : chain.length = 32)
    (hqp : c.pubParse (c.pubSer pub) = some pub) :
    PubKey.deserialize c
        ((v1 :: v2 :: v3 :: v4 :: dep :: 0 :: 0 :: 0 :: 0 :: 0 :: 0 :: 0 :: 0 ::
            (chain ++ c.pubSer pub)) ++
          checksumOf c (v1 :: v2 :: v3 :: v4 :: dep :: 0 :: 0 :: 0 :: 0 :: 0 :: 0 :: 0 :: 0 ::
            (chain ++ c.pubSer pub))) =
      .ok ⟨net, ⟨dep, none, none⟩, ⟨pub, chain⟩⟩ := by
  have hdrop13 : (v1 :: v2 :: v3 :: v4 :: dep :: 0 :: 0 :: 0 :: 0 :: 0 :: 0 :: 0 :: 0 ::
      (chain ++ c.pubSer pub)).drop 13 = chain ++ c.pubSer pub := rfl
  generalize hDdef : (v1 :: v2 :: v3 :: v4 :: dep :: 0 :: 0 :: 0 :: 0 :: 0 :: 0 :: 0 :: 0 ::
      (chain ++ c.pubSer pub)) = D
  rw [hDdef] at hdrop13
  have hDlen : D.length = 78 := by
    rw [← hDdef]
    simp only [List.length_cons, List.length_append, hchain, c.pubSer_len]
  have hcs : (checksumOf c D).length = 4 := by
    simp [checksumOf, List.length_take, c.sha256_len]
  have htake78 : (D ++ checksumOf c D).take 78 = D := List.take_left' hDlen
  have hdrop78 : (D ++ checksumOf c D).drop 78 = checksumOf c D := List.drop_left' hDlen
  have hver : verify_checksum c (D ++ checksumOf c D) = .ok () := by
    unfold verify_checksum
    rw [if_neg (by rw [List.length_append, hDlen, hcs]; omega)]
    rw [htake78, hdrop78, List.take_of_length_le (le_of_eq hcs)]
    simp
  have ht4 : (D ++ checksumOf c D).take 4 = [v1, v2, v3, v4] := by
    rw [List.take_append_of_le_length (by rw [hDlen]; omega), ← hDdef]
    rfl
  have hg4 : (D ++ checksumOf c D).getD 4 0 = dep := by
    rw [List.getD_append _ _ _ _ (by rw [hDlen]; omega), ← hDdef]
    rfl
  have h54 : ((D ++ checksumOf c D).drop 5).take 4 = [0, 0, 0, 0] := by
    rw [List.drop_append_of_le_length (by rw [hDlen]; omega)]
    rw [List.take_append_of_le_length (by rw [List.length_drop, hDlen]; omega)]
    rw [← hDdef]
    rfl
  have hdec : decode_derivation (D ++ checksumOf c D) =
      .ok (⟨net, .PubKey⟩, ⟨dep, none, none⟩) := by
    unfold decode_derivation
    rw [if_neg (by rw [List.length_append, hDlen]; omega)]
    rw [ht4, hfb]
    dsimp only
    rw [hg4, h54, if_pos rfl]
  have hchain' : ((D ++ checksumOf c D).drop 13).take 32 = chain := by
    rw [List.drop_append_of_le_length (by rw [hDlen]; omega), hdrop13]
    rw [List.append_assoc]
    exact List.take_left' hchain
  have hpub' : ((D ++ checksumOf c D).drop 45).take 33 = c.pubSer pub := by
    rw [List.drop_append_of_le_length (by rw [hDlen]; omega)]
    have h45 : D.drop 45 = (D.drop 13).drop 32 := by
      rw [List.drop_drop]
    rw [h45, hdrop13, List.drop_left' hchain]
    rw [List.take_append_of_le_length (by rw [c.pubSer_len]),
      List.take_of_length_le (le_of_eq (c.pubSer_len pub))]
  unfold PubKey.deserialize
  rw [hver]
  rw [hdec]
  dsimp only
  rw [hchain', hpub', hqp]

/-- C1 (amended): serialize/deserialize round-trips exactly for keys
whose `Derivation` metadata records no parent key and no key index
(master keys): for such a valid `PrivKey` or `PubKey`,
`deserialize (serialize key) = key`.  (For a key whose metadata records
a parent key the round-trip fails: `decode_derivation` always sets the
decoded `parent_key` to `None`.) -/
theorem serialize_roundtrip (c : Crypto) (k : PrivKey) (q : PubKey)
    (hk1 : k.extended_key.chain_code.length = 32)
    (hk2 : 0 < k.extended_key.private_key)
    (hk3 : k.extended_key.private_key < secpOrder)
    (hk4 : k.derivation.depth < 256)
    (hk5 : k.derivation.parent_key = none)
    (hk6 : k.derivation.key_index = none)
    (hq1 : q.extended_key.chain_code.length = 32)
    (hq4 : q.derivation.depth < 256)
    (hq5 : q.derivation.parent_key = none)
    (hq6 : q.derivation.key_index = none)
    (hqp : c.pubParse (c.pubSer q.extended_key.public_key) = some q.extended_key.public_key) :
    (∀ buf, PrivKey.serialize c k = .ok buf → PrivKey.deserialize c buf = .ok k) ∧
    (∀ buf, PubKey.serialize c q = .ok buf → PubKey.deserialize c buf = .ok q) := by
  constructor
  · obtain ⟨net, d, ek⟩ := k
    obtain ⟨depth, pk, ki⟩ := d
    obtain ⟨priv, chain⟩ := ek
    dsimp only at hk1 hk2 hk3 hk4 hk5 hk6
    subst hk5
    subst hk6
    intro buf hser
    unfold PrivKey.serialize at hser
    dsimp only [encode_derivation, parent_fingerprint] at hser
    rw [show natToBe 1 depth = [depth] by
      simp [natToBe, natToBe_length, Nat.mod_eq_of_lt hk4]] at hser
    cases net
    · rw [show Version.to_bytes ⟨Network.MainNet, KeyType.PrivKey⟩ = [4, 136, 173, 228]
        from rfl] at hser
      rw [if_pos (by simp [natToBe_length, hk1])] at hser
      cases hser
      have h := deserializePriv_of_shape c .MainNet 4 136 173 228 depth priv chain (by decide) hk1 hk2 hk3
      convert h using 2
      simp
    · rw [show Version.to_bytes ⟨Network.TestNet, KeyType.PrivKey⟩ = [4, 53, 131, 148]
        from rfl] at hser
      rw [if_pos (by simp [natToBe_length, hk1])] at hser
      cases hser
      have h := deserializePriv_of_shape c .TestNet 4 53 131 148 depth priv chain (by decide) hk1 hk2 hk3
      convert h using 2
      simp
  · obtain ⟨net, d, ek⟩ := q
    obtain ⟨depth, pk, ki⟩ := d
    obtain ⟨pub, chain⟩ := ek
    dsimp only at hq1 hq4 hq5 hq6 hqp
    subst hq5
    subst hq6
    intro buf hser
    unfold PubKey.serialize at hser
    dsimp only [encode_derivation, parent_fingerprint] at hser
    rw [show natToBe 1 depth = [depth] by
      simp [natToBe, natToBe_length, Nat.mod_eq_of_lt hq4]] at hser
    cases net
    · rw [show Version.to_bytes ⟨Network.MainNet, KeyType.PubKey⟩ = [4, 136, 178, 30]
        from rfl] at hser
      rw [if_pos (by simp [natToBe_length, hq1, c.pubSer_len])] at hser
      cases hser
      have h := deserializePub_of_shape c .MainNet 4 136 178 30 depth pub chain (by decide) hq1 hqp
      convert h using 2
    · rw [show Version.to_bytes ⟨Network.TestNet, KeyType.PubKey⟩ = [4, 53, 135, 207]
        from rfl] at hser
      rw [if_pos (by simp [natToBe_length, hq1, c.pubSer_len])] at hser
      cases hser
      have h := deserializePub_of_shape c .TestNet 4 53 135 207 depth pub chain (by decide) hq1 hqp
      convert h using 2

/-- Serializing then deserializing a `PrivKey` over the wire byte
format. -/
def privRoundTrip (c : Crypto) (k : PrivKey) : RRes BtcError PrivKey :=
  match PrivKey.serialize c k with
  | .ok buf => PrivKey.deserialize c buf
  | .error e => .error e
  | .abort => .abort

/-- A non-master private key whose metadata records a parent key and a
key index. -/
def keyWithParent : PrivKey :=
  ⟨.MainNet, ⟨1, some ⟨1, List.replicate 32 0⟩, some (.Normal 0)⟩, ⟨1, List.replicate 32 0⟩⟩

/-- C1 counterexample: for a non-master key whose metadata records a
parent key, `decode(encode(key)) ≠ key` — the decoded metadata always
has `parent_key = None`. -/
theorem serialize_roundtrip_parent_fails :
    privRoundTrip cryptoA keyWithParent ≠ .ok keyWithParent := by decide

/-- A master private key (no parent, no index). -/
def masterPriv : PrivKey := ⟨.MainNet, ⟨0, none, none⟩, ⟨1, List.replicate 32 0⟩⟩

/-- A master public key (no parent, no index). -/
def masterPub : PubKey := ⟨.MainNet, ⟨0, none, none⟩, ⟨2, List.replicate 32 0⟩⟩

/-- C1 witness: round trip at concrete master keys. -/
theorem serialize_roundtrip_witness :
    PrivKey.deserialize cryptoA
        ([4, 136, 173, 228] ++ List.replicate 9 0 ++ List.replicate 32 0 ++ [0] ++
          natToBe 32 1 ++ [0, 0, 0, 0]) = .ok masterPriv ∧
    PubKey.deserialize cryptoA
        ([4, 136, 178, 30] ++ List.replicate 9 0 ++ List.replicate 32 0 ++
          natToBe 33 2 ++ [0, 0, 0, 0]) = .ok masterPub := by
  have h := serialize_roundtrip cryptoA masterPriv masterPub (by decide) (by decide)
    (by decide) (by decide) (by decide) (by decide) (by decide) (by decide) (by decide)
    (by decide) (by decide)
  exact ⟨h.1 _ (by decide), h.2 _ (by decide)⟩

/-! ## C7 -/

/-- The digit expansion of `natDigitsRevFuel` evaluates back to the
number, for sufficient fuel. -/
theorem natDigitsRevFuel_foldr :
    ∀ fuel n, n ≤ fuel →
      (natDigitsRevFuel fuel n).foldr (fun d a => d + 10 * a) 0 = n := by
  intro fuel
  induction fuel with
  | zero =>
    intro n hn
    interval_cases n
    rfl
  | succ fuel ih =>
    intro n hn
    match n with
    | 0 => rfl
    | m + 1 =>
      have hdiv : (m + 1) / 10 ≤ fuel := by
        have := Nat.div_lt_self (Nat.succ_pos m) (by norm_num : (1:Nat) < 10)
        omega
      simp only [natDigitsRevFuel, List.foldr_cons, ih _ hdiv]
      have := Nat.div_add_mod (m + 1) 10
      omega

/-- All digits produced by `natDigitsRevFuel` are below 10. -/
theorem natDigitsRevFuel_lt10 :
    ∀ fuel n d, d ∈ natDigitsRevFuel fuel n → d < 10 := by
  intro fuel
  induction fuel with
  | zero => intro n d hd; cases hd
  | succ fuel ih =>
    intro n d hd
    match n with
    | 0 => cases hd
    | m + 1 =>
      simp only [natDigitsRevFuel, List.mem_cons] at hd
      rcases hd with h | h
      · omega
      · exact ih _ _ h

/-- Folding most-significant-first over the reversed digit list agrees
with the least-significant-first fold. -/
theorem foldl_reverse_digits (l : List Nat) :
    l.reverse.foldl (fun a d => 10 * a + d) 0 = l.foldr (fun d a => d + 10 * a) 0 := by
  induction l with
  | nil => rfl
  | cons d l ih =>
    simp only [List.reverse_cons, List.foldl_append, List.foldl_cons, List.foldl_nil,
      List.foldr_cons, ih]
    omega

/-- `natReprBytes` is never empty. -/
theorem natReprBytes_ne_nil (n : Nat) : natReprBytes n ≠ [] := by
  unfold natReprBytes
  split
  · simp
  · next h =>
    match n, h with
    | m + 1, _ =>
      simp [natDigitsRevFuel]

/-- Every byte of `natReprBytes` is an ASCII digit. -/
theorem natReprBytes_digits (n : Nat) : ∀ b ∈ natReprBytes n, 48 ≤ b ∧ b ≤ 57 := by
  unfold natReprBytes
  split
  · simp
  · intro b hb
    simp only [List.mem_map, List.mem_reverse] at hb
    obtain ⟨d, hd, rfl⟩ := hb
    have := natDigitsRevFuel_lt10 n n d hd
    omega

/-- Folding the base-10 accumulator over a digit-byte list strips the
ASCII offset. -/
theorem foldl_map_digit (l : List Nat) :
    ∀ a, ((l.map fun d => 48 + d).foldl (fun a b => 10 * a + (b - 48)) a) =
      l.foldl (fun a d => 10 * a + d) a := by
  induction l with
  | nil => intro a; rfl
  | cons d l ih =>
    intro a
    simp only [List.map_cons, List.foldl_cons, ih, Nat.add_sub_cancel_left]

/-- The accumulator of the embedded `parse` evaluates `natReprBytes n`
back to `n`. -/
theorem natReprBytes_foldl (n : Nat) :
    (natReprBytes n).foldl (fun a b => 10 * a + (b - 48)) 0 = n := by
  unfold natReprBytes
  split
  · next h => simp [h]
  · rw [foldl_map_digit, foldl_reverse_digits]
    exact natDigitsRevFuel_foldr n n le_rfl

/-- `str::parse::<u64>` is a left inverse of decimal formatting. -/
theorem parseU64_natReprBytes (n : Nat) (h : n < 2 ^ 64) :
    parseU64 (natReprBytes n) = some n := by
  have hne := natReprBytes_ne_nil n
  have hdig := natReprBytes_digits n
  have hhead : (natReprBytes n).head? ≠ some 43 := by
    rcases hl : natReprBytes n with _ | ⟨b, l⟩
    · exact absurd hl hne
    · have := hdig b (by rw [hl]; exact List.mem_cons_self b l)
      simp only [List.head?_cons, ne_eq, Option.some.injEq]
      omega
  unfold parseU64
  rw [if_neg hhead]
  rw [if_pos ⟨hne, by
    simp only [List.all_eq_true, decide_eq_true_eq]
    exact hdig⟩]
  rw [natReprBytes_foldl]
  rw [if_pos h]

/-- Validity of every index of a `ChainPath` (per the `u64`
`KeyIndex::is_valid`). -/
def ChainPath.validb : ChainPath → Bool
  | .Root => true
  | .Node parent key_index => parent.validb && key_index.is_valid

/-- The key indices of a `ChainPath`, root to leaf. -/
def ChainPath.indexList : ChainPath → List KeyIndex64
  | .Root => []
  | .Node parent key_index => parent.indexList ++ [key_index]

theorem collectLevels_reverse (p : ChainPath) :
    (ChainPath.collectLevels p).reverse =
      [109] :: p.indexList.map ChainPath.renderIndex := by
  induction p with
  | Root => rfl
  | Node parent key_index ih =>
    simp only [ChainPath.collectLevels, List.reverse_cons, ih, ChainPath.indexList,
      List.map_append, List.map_cons, List.map_nil, List.cons_append, List.nil_append]

theorem indexList_foldl (p : ChainPath) :
    p.indexList.foldl .Node .Root = p := by
  induction p with
  | Root => rfl
  | Node parent key_index ih =>
    simp only [ChainPath.indexList, List.foldl_append, List.foldl_cons, List.foldl_nil, ih]

theorem indexList_valid (p : ChainPath) (h : p.validb = true) :
    ∀ k ∈ p.indexList, k.is_valid = true := by
  induction p with
  | Root => intro k hk; cases hk
  | Node parent key_index ih =>
    simp only [ChainPath.validb, Bool.and_eq_true] at h
    intro k hk
    simp only [ChainPath.indexList, List.mem_append, List.mem_cons] at hk
    rcases hk with hk | hk
    · exact ih h.1 k hk
    · rcases hk with rfl | hk
      · exact h.2
      · cases hk

/-- Rendered indices never contain the separator byte. -/
theorem sep_not_mem_renderIndex (k : KeyIndex64) : 47 ∉ ChainPath.renderIndex k := by
  cases k with
  | Normal i =>
    intro hmem
    have := natReprBytes_digits i 47 hmem
    omega
  | Hardened i =>
    intro hmem
    simp only [ChainPath.renderIndex, List.mem_append, List.mem_cons] at hmem
    rcases hmem with h | h
    · have := natReprBytes_digits i 47 h
      omega
    · simp at h

/-- Rendered indices are nonempty. -/
theorem renderIndex_ne_nil (k : KeyIndex64) : ChainPath.renderIndex k ≠ [] := by
  cases k with
  | Normal i => exact natReprBytes_ne_nil i
  | Hardened i => simp [ChainPath.renderIndex]

/-- Parsing one rendered normal-index segment steps the fold with that
index. -/
theorem fromStringGo_normal (i : Nat) (h : i < 2147483648) (acc : ChainPath) (level : Nat)
    (rest : List (List Nat)) :
    ChainPath.fromStringGo acc level (natReprBytes i :: rest) =
      ChainPath.fromStringGo (.Node acc (.Normal i)) (level + 1) rest := by
  have hne := natReprBytes_ne_nil i
  have hb : (natReprBytes i).getLast? = some ((natReprBytes i).getLast hne) :=
    List.getLast?_eq_getLast _ hne
  have hbd : 48 ≤ (natReprBytes i).getLast hne ∧ (natReprBytes i).getLast hne ≤ 57 :=
    natReprBytes_digits i _ (List.getLast_mem hne)
  simp only [ChainPath.fromStringGo, hb]
  rw [if_neg (by omega :
    ¬((natReprBytes i).getLast hne = 72 ∨ (natReprBytes i).getLast hne = 39))]
  rw [parseU64_natReprBytes i (by omega)]
  dsimp only
  have hidx : KeyIndex64.from_index i = .ok (.Normal i) := by
    unfold KeyIndex64.from_index KeyIndex64.HARDENED_KEY_START_INDEX
    rw [if_pos h]
  rw [hidx]

/-- Parsing one rendered hardened-index segment steps the fold with
that index. -/
theorem fromStringGo_hardened (i : Nat) (h1 : 2147483648 ≤ i) (h2 : i ≤ 4294967295)
    (acc : ChainPath) (level : Nat) (rest : List (List Nat)) :
    ChainPath.fromStringGo acc level ((natReprBytes i ++ [72]) :: rest) =
      ChainPath.fromStringGo (.Node acc (.Hardened i)) (level + 1) rest := by
  simp only [ChainPath.fromStringGo, List.getLast?_concat]
  rw [if_pos (Or.inl trivial), List.dropLast_concat]
  rw [parseU64_natReprBytes i (by omega)]
  dsimp only
  have hidx : KeyIndex64.from_index i = .ok (.Hardened i) := by
    unfold KeyIndex64.from_index KeyIndex64.HARDENED_KEY_START_INDEX
      KeyIndex64.HARDENED_KEY_END_INDEX
    rw [if_neg (by omega), if_pos (by omega)]
  rw [hidx]

/-- The subpath loop of `from_string` inverts rendering, folding the
indices back onto the accumulator. -/
theorem fromStringGo_renders (ks : List KeyIndex64) (hks : ∀ k ∈ ks, k.is_valid = true) :
    ∀ acc level,
      ChainPath.fromStringGo acc level (ks.map ChainPath.renderIndex) =
        .ok (ks.foldl .Node acc) := by
  induction ks with
  | nil => intro acc level; rfl
  | cons k ks ih =>
    intro acc level
    have hk : k.is_valid = true := hks k (List.mem_cons_self k ks)
    have hks' : ∀ k2 ∈ ks, k2.is_valid = true := fun k2 h2 => hks k2 (List.mem_cons_of_mem k h2)
    cases k with
    | Normal i =>
      have hi : i < 2147483648 := by
        simpa [KeyIndex64.is_valid, KeyIndex64.HARDENED_KEY_START_INDEX] using hk
      rw [List.map_cons, ChainPath.renderIndex, fromStringGo_normal i hi, ih hks']
      rfl
    | Hardened i =>
      have hi : 2147483648 ≤ i ∧ i ≤ 4294967295 := by
        simpa [KeyIndex64.is_valid, KeyIndex64.HARDENED_KEY_START_INDEX,
          KeyIndex64.HARDENED_KEY_END_INDEX] using hk
      rw [List.map_cons, ChainPath.renderIndex, fromStringGo_hardened i hi.1 hi.2, ih hks']
      rfl

/-- `split_terminator` recovers the segments joined by `to_string`. -/
theorem splitTerminator_to_string (p : ChainPath) :
    splitTerminator 47 (ChainPath.to_string p) =
      [109] :: p.indexList.map ChainPath.renderIndex := by
  have hsegs : ∀ l ∈ [109] :: p.indexList.map ChainPath.renderIndex, (47 : Nat) ∉ l := by
    intro l hl
    rcases List.mem_cons.mp hl with rfl | hl
    · simp
    · simp only [List.mem_map] at hl
      obtain ⟨k, _, rfl⟩ := hl
      exact sep_not_mem_renderIndex k
  have hsplit : (List.intercalate [47]
      ([109] :: p.indexList.map ChainPath.renderIndex)).splitOn 47 =
      [109] :: p.indexList.map ChainPath.renderIndex :=
    List.splitOn_intercalate ([109] :: p.indexList.map ChainPath.renderIndex) 47
      hsegs (List.cons_ne_nil _ _)
  have hlast : ([109] :: p.indexList.map ChainPath.renderIndex).getLast? ≠ some [] := by
    intro hc
    obtain ⟨hne2, heq⟩ := List.mem_getLast?_eq_getLast hc
    have hmem := List.getLast_mem hne2
    rw [← heq] at hmem
    rcases List.mem_cons.mp hmem with h | h
    · cases h
    · simp only [List.mem_map] at h
      obtain ⟨k, _, hk⟩ := h
      exact renderIndex_ne_nil k hk
  unfold splitTerminator ChainPath.to_string
  rw [collectLevels_reverse, hsplit, if_neg hlast]

/-- C7 (amended): for every `ChainPath` whose indices are valid (normal
below `2^31`, hardened in `[2^31, 2^32)`), parsing the formatted path
returns the identical path: `from_string (to_string p) = Ok p`.
Consequently `format(parse(s)) = s` for every canonical string in the
image of `to_string`, i.e. strings whose hardened segments carry the
raw (`≥ 2^31`) index.  A hardened marker on a normalized (below
`2^31`) index is parsed by this revision with the marker stripped and
the hardening dropped, so strings like `"m/1H"` do not round-trip. -/
theorem chain_path_roundtrip (p : ChainPath) (h : p.validb = true) :
    ChainPath.from_string (ChainPath.to_string p) = .ok p := by
  unfold ChainPath.from_string
  rw [splitTerminator_to_string]
  dsimp only
  rw [if_pos rfl]
  rw [fromStringGo_renders p.indexList (indexList_valid p h) .Root 1]
  rw [indexList_foldl]

/-- C7 witness: the canonical path `"m/2147483649H/1"` round-trips. -/
theorem chain_path_roundtrip_witness :
    ChainPath.from_string
        (ChainPath.to_string (.Node (.Node .Root (.Hardened 2147483649)) (.Normal 1))) =
      .ok (.Node (.Node .Root (.Hardened 2147483649)) (.Normal 1)) :=
  chain_path_roundtrip (.Node (.Node .Root (.Hardened 2147483649)) (.Normal 1)) (by decide)

/-- C7 counterexample: `"m/1H"` (bytes `[109, 47, 49, 72]`) parses —
the hardened marker is stripped but the index is classified by
`KeyIndex::from_index`, yielding `Normal 1` — and formats back to
`"m/1"` (bytes `[109, 47, 49]`), not the original string. -/
theorem chain_path_m1H_not_roundtrip :
    ChainPath.from_string [109, 47, 49, 72] = .ok (.Node .Root (.Normal 1)) ∧
    ChainPath.to_string (.Node .Root (.Normal 1)) = [109, 47, 49] ∧
    [109, 47, 49] ≠ [109, 47, 49, 72] := by
  refine ⟨by decide, by decide, by decide⟩
